import Mathlib

/-!
Shallow embedding of `src/normalize_mathml.py` (the MathML tree normalizer).

The program mutates a BeautifulSoup tree in place.  We model the tree as an
inductive type (elements with ordered children, and text leaves) and model the
destructive pass `Normalizer.dfs` as a function from a node to the list of
nodes that take its place in its parent (the empty list models `extract()`,
a longer list models `replace_with_children()`).  Exceptions raised by the
Python code are modelled with `Except PyErr`.

Library semantics used by the source and fixed here:
  * `Tag.__eq__` against a `str` is `False` (a string has no `name`/`attrs`/
    `contents` attributes), so `t.parent not in POSITIONAL_TAGS` (line 99 of
    the source, a dict keyed by strings tested against an element) always
    holds when the parent exists; see `elemEqStrKey`.
  * `.children` iterates the live list of child nodes; `remove_empty_columns`
    extracts cells while iterating, which skips the element following each
    extracted cell; see `extractLoop`.
  * `Tag.string` is the transitive single-child string, `None` when a node on
    the chain has zero or at least two children; adding `None` to a string
    raises `TypeError`; see `tagString` and `mergeGo`.
  * `NavigableString` has no `string` setter: reading `t.string` on a text
    node returns the string itself, but `t.string = ...` only creates a
    shadow instance attribute and leaves the tree's text unchanged, so the
    leaf rewrites computed in the text branch of `dfs` never take effect;
    see `normalizeLeaf` and the text case of `dfs`.
  * `max()` of an empty sequence raises `ValueError`.
  * `str.strip()` removes the characters for which Python `str.isspace()` is
    true; see `isPySpace`.
-/

namespace MathmlNorm

/-- A node of the parsed markup tree: an element with a tag name and an
ordered list of children, or a text leaf. -/
inductive Node where
  | elem (tag : String) (children : List Node)
  | text (s : String)

/-- Python exceptions that the normalizer can raise. -/
inductive PyErr where
  | runtimeError (msg : String)
  | valueError (msg : String)
  | typeError (msg : String)
  | attributeError (msg : String)
deriving DecidableEq, Repr

mutual

/-- Decidable equality of nodes. -/
def nodeDecEq : (a b : Node) → Decidable (a = b)
  | .elem t1 cs1, .elem t2 cs2 =>
    match String.decEq t1 t2 with
    | isTrue ht =>
      match nodeListDecEq cs1 cs2 with
      | isTrue hc => isTrue (by rw [ht, hc])
      | isFalse hc => isFalse (by intro h; injection h; contradiction)
    | isFalse ht => isFalse (by intro h; injection h; contradiction)
  | .elem _ _, .text _ => isFalse (by intro h; exact Node.noConfusion h)
  | .text _, .elem _ _ => isFalse (by intro h; exact Node.noConfusion h)
  | .text s1, .text s2 =>
    match String.decEq s1 s2 with
    | isTrue h => isTrue (by rw [h])
    | isFalse h => isFalse (by intro hh; injection hh; contradiction)

/-- Decidable equality of node lists. -/
def nodeListDecEq : (a b : List Node) → Decidable (a = b)
  | [], [] => isTrue rfl
  | [], _ :: _ => isFalse (by intro h; exact List.noConfusion h)
  | _ :: _, [] => isFalse (by intro h; exact List.noConfusion h)
  | a :: as, b :: bs =>
    match nodeDecEq a b with
    | isTrue h1 =>
      match nodeListDecEq as bs with
      | isTrue h2 => isTrue (by rw [h1, h2])
      | isFalse h2 => isFalse (by intro h; injection h; contradiction)
    | isFalse h1 => isFalse (by intro h; injection h; contradiction)

end

instance : DecidableEq Node := nodeDecEq

deriving instance DecidableEq for Except

/-- The characters for which Python `str.isspace()` returns `True`. -/
def isPySpace (c : Char) : Bool :=
  [' ', '\t', '\n', '\r', '\x0b', '\x0c',
   '\x1c', '\x1d', '\x1e', '\x1f', '\x85', '\xa0',
   '\u1680', '\u2000', '\u2001', '\u2002', '\u2003', '\u2004', '\u2005',
   '\u2006', '\u2007', '\u2008', '\u2009', '\u200a',
   '\u2028', '\u2029', '\u202f', '\u205f', '\u3000'].contains c

/-- Python `s.strip()`: remove leading and trailing whitespace. -/
def pyStrip (s : String) : String :=
  ⟨((s.data.dropWhile isPySpace).reverse.dropWhile isPySpace).reverse⟩

/-- One pass of Python `str.replace(old, new)` over a character list, where
`old = o :: os`.  Replacements are non-overlapping, left to right.  The fuel
argument starts at the length of the list and only serves to make the
recursion structural; it is never exhausted. -/
def pyReplaceFuel (o : Char) (os new : List Char) : Nat → List Char → List Char
  | 0, l => l
  | _ + 1, [] => []
  | fuel + 1, c :: rest =>
    if c = o ∧ os.isPrefixOf rest then
      new ++ pyReplaceFuel o os new fuel (rest.drop os.length)
    else
      c :: pyReplaceFuel o os new fuel rest

/-- Python `s.replace(old, new)` (for nonempty `old`; an empty `old` does not
occur in the source). -/
def pyReplace (s old new : String) : String :=
  match old.data with
  | [] => s
  | o :: os => ⟨pyReplaceFuel o os new.data s.data.length s.data⟩

/-- The first replacement's pattern in `normalize_characters`.  The source
file literally contains the bytes `c3 a2 cb 86 e2 80 99`, i.e. the
three-character string U+00E2 U+02C6 U+2019 (the UTF-8 encoding of the
minus sign U+2212 misdecoded as cp1252), not the minus-sign character. -/
def mojibakeMinus : String := "\u00E2\u02C6\u2019"

/-- `normalize_characters` from the source: replace the three-character
sequence `mojibakeMinus` with `-`, then the thin space U+2009 with a plain
space. -/
def normalize_characters (s : String) : String :=
  pyReplace (pyReplace s mojibakeMinus "-") "\u2009" " "

/-- The value the text-leaf branch of `Normalizer.dfs` computes for
`t.string`: strip, substitute characters, and if the result is exactly the
function-application codepoint U+2061, the empty string.  The program
assigns this value to `t.string` on a `NavigableString`, which has no
`string` setter, so the assignment only creates a shadow instance attribute
(the follow-up comparison `t.string == FA` reads that shadow value): the
value is discarded and the text in the tree is left unchanged; see the
text case of `dfs`. -/
def normalizeLeaf (s : String) : String :=
  if normalize_characters (pyStrip s) = "\u2061" then ""
  else normalize_characters (pyStrip s)

/-- `EMPTY_TAGS` from the source. -/
def EMPTY_TAGS : List String := ["mtd", "mprescripts", "none"]

/-- The keys of the `POSITIONAL_TAGS` dict (membership tests `name in
POSITIONAL_TAGS` use the keys, so `mmultiscripts` is included). -/
def POSITIONAL_KEYS : List String :=
  ["msub", "msup", "msubsup", "mover", "munder", "munderover",
   "mmultiscripts", "mfrac"]

/-- `POSITIONAL_TAGS.get(name, None)`: the required arity, `none` both for
tags outside the dict and for `mmultiscripts` (whose dict value is `None`). -/
def POSITIONAL_GET : String → Option Nat
  | "msub" => some 2
  | "msup" => some 2
  | "msubsup" => some 3
  | "mover" => some 2
  | "munder" => some 2
  | "munderover" => some 3
  | "mfrac" => some 2
  | _ => none

/-- `remove_empty_tag` tests `t.parent not in POSITIONAL_TAGS`, asking whether
the parent element *object* equals one of the dict's string keys.  bs4's
`Tag.__eq__` returns `False` against any object without `name`, `attrs` and
`contents` attributes, so an element never equals a string key and the
membership is always false. -/
def elemEqStrKey : Bool := false

/-- bs4 `Tag.string` / `NavigableString.string`: the transitive single-child
string, `None` when a node on the chain has zero or several children. -/
def tagString : Node → Option String
  | .text s => some s
  | .elem _ [c] => tagString c
  | .elem _ _ => none

/-- Whether a node is an element named `mi` (text leaves have `name = None`
in bs4, hence are never `mi`). -/
def isMi : Node → Bool
  | .elem "mi" _ => true
  | _ => false

/-- The loop of `merge_mi`: walk the children keeping the previous child
(`last_c`, the `pending` argument).  When the current and previous children
are both `mi` elements, the current child's string becomes the concatenation
and the previous child is extracted; reading the string of an `mi` with zero
or several children yields `None` and the `+` raises `TypeError`. -/
def mergeGo : Option Node → List Node → Except PyErr (List Node)
  | pending, [] => .ok pending.toList
  | none, c :: rest => mergeGo (some c) rest
  | some p, c :: rest =>
    if isMi p ∧ isMi c then
      match tagString p, tagString c with
      | some s1, some s2 => mergeGo (some (.elem "mi" [.text (s1 ++ s2)])) rest
      | _, _ => .error (.typeError "unsupported operand type for +: NoneType")
    else
      match mergeGo (some c) rest with
      | .error e => .error e
      | .ok l => .ok (p :: l)

/-- `merge_mi`: merge successive `mi` children, skipped entirely when the
node's own tag is one of the positional tags. -/
def mergeMi (tag : String) (cs : List Node) : Except PyErr (List Node) :=
  if POSITIONAL_KEYS.contains tag then .ok cs else mergeGo none cs

/-- `is_empty_mtd`: an element named `mtd` with no children. -/
def isEmptyMtd : Node → Bool
  | .elem "mtd" [] => true
  | _ => false

/-- One child of `remove_single_table`: an `mtable` with a single `mtr` child
which has a single `mtd` child is replaced by the `mtd`'s children (three
nested `replace_with_children` calls). -/
def replaceSingle : Node → List Node
  | .elem "mtable" [.elem "mtr" [.elem "mtd" gcs]] => gcs
  | n => [n]

/-- `remove_single_table` acting on a node's child list. -/
def removeSingleTable (cs : List Node) : List Node :=
  cs.flatMap replaceSingle

/-- `len(list(c.children))`: text leaves have no `.children` attribute and
raise `AttributeError`. -/
def childCountPy : Node → Except PyErr Nat
  | .text _ => .error (.attributeError "NavigableString object has no attribute children")
  | .elem _ cs => .ok cs.length

/-- The widths of the rows of a table, with the first failure propagated. -/
def countsOf : List Node → Except PyErr (List Nat)
  | [] => .ok []
  | c :: rest =>
    match childCountPy c with
    | .error e => .error e
    | .ok n =>
      match countsOf rest with
      | .error e => .error e
      | .ok ns => .ok (n :: ns)

/-- Maximum of a list of naturals (the source only applies it to nonempty
lists; the empty case is caught before and raises `ValueError`). -/
def maxList (l : List Nat) : Nat := l.foldl max 0

/-- The inner loop of the first pass of `remove_empty_columns`:
`is_empty[j] = is_empty[j] and is_empty_mtd(cell)` for each cell of a row. -/
def markRow : List Bool → Nat → List Node → List Bool
  | isE, _, [] => isE
  | isE, j, cell :: rest =>
    markRow (isE.set j (isE.getD j true && isEmptyMtd cell)) (j + 1) rest

/-- The first pass of `remove_empty_columns` over all rows. -/
def markAll : List Bool → List Node → List Bool
  | isE, [] => isE
  | isE, row :: rest =>
    markAll (match row with
             | .elem _ rcs => markRow isE 0 rcs
             | _ => isE) rest

/-- The second pass of `remove_empty_columns` on one row.  The source
iterates `row.children` (the live list) while extracting cells, so after an
extraction the next element is skipped by the iterator (it stays in the list
and is never tested) and the running index `j` counts only yielded cells. -/
def extractLoop (isE : List Bool) : Nat → List Node → List Node
  | _, [] => []
  | j, [cell] => if isE.getD j false then [] else [cell]
  | j, cell :: skipped :: rest =>
    if isE.getD j false then skipped :: extractLoop isE (j + 1) rest
    else cell :: extractLoop isE (j + 1) (skipped :: rest)

/-- `remove_empty_columns`: on an `mtable`, `n_columns` is the maximum row
width (`ValueError` when there are no rows, `AttributeError` when a row is a
text leaf); a column is empty when every row's cell there is an empty `mtd`
(missing trailing cells count as empty); empty columns' cells are extracted
with the live-iteration loop `extractLoop`. -/
def removeEmptyColumns (tag : String) (cs : List Node) : Except PyErr (List Node) :=
  if tag = "mtable" then
    match cs with
    | [] => .error (.valueError "max() arg is an empty sequence")
    | _ =>
      match countsOf cs with
      | .error e => .error e
      | .ok counts =>
        let isE := markAll (List.replicate (maxList counts) true) cs
        .ok (cs.map fun row =>
          match row with
          | .elem rt rcs => .elem rt (extractLoop isE 0 rcs)
          | t => t)
  else .ok cs

/-- `validate`: a tag with a required arity whose child count differs raises
`RuntimeError('{} has an invalid number of children'.format(t.name))`. -/
def validate (tag : String) (cs : List Node) : Except PyErr Unit :=
  match POSITIONAL_GET tag with
  | some n => if cs.length = n then .ok () else
      .error (.runtimeError (tag ++ " has an invalid number of children"))
  | none => .ok ()

/-- The rule pipeline run on every visited element after the branch on
`annotation`/`semantics` (lines 39-52 of the source): `merge_mi`, the
single-child `mrow` collapse, `remove_empty_tag`, `remove_empty_row`,
`remove_empty_columns`, `remove_single_table`, `validate`.  `hasParent` is
whether the node has a parent (`extract` is a no-op and
`replace_with_children` raises `ValueError` without one).  A collapsed
`mrow` is detached and empty, so none of the later rules can fire or raise
on it and the function returns its child directly.  An element detached by
`remove_empty_tag` or `remove_empty_row` still runs the remaining rules, so
their exceptions still propagate. -/
def applyRules (hasParent : Bool) (tag : String) (cs : List Node) :
    Except PyErr (List Node) :=
  match mergeMi tag cs with
  | .error e => .error e
  | .ok cs₁ =>
    if tag = "mrow" ∧ cs₁.length = 1 then
      if hasParent then .ok cs₁
      else .error (.valueError "Cannot replace an element with its contents when element is not part of a tree")
    else
      match removeEmptyColumns tag cs₁ with
      | .error e => .error e
      | .ok cs₂ =>
        let cs₃ := removeSingleTable cs₂
        match validate tag cs₃ with
        | .error e => .error e
        | .ok _ =>
          let gone₁ := cs₁.isEmpty && !(EMPTY_TAGS.contains tag)
                       && hasParent && !elemEqStrKey
          let gone₂ := hasParent && (tag = "mtr" : Bool) && cs₁.all isEmptyMtd
          .ok (if gone₁ || gone₂ then [] else [.elem tag cs₃])

mutual

/-- `Normalizer.dfs` on a node that has a parent, returning the list of nodes
that take its place in the parent's child sequence.  An `annotation` element
is extracted without visiting its children (but `merge_mi` still runs on the
detached node and can raise; the later rules cannot).  A `semantics` element
with exactly one child — counted before any recursion — is replaced by that
child, unvisited.  Otherwise the children are processed first and the rule
pipeline runs.  On a text leaf the branch computes `normalizeLeaf` of the
string, but a `NavigableString` has no `string` setter, so both assignments
to `t.string` only create a shadow instance attribute and raise nothing: the
leaf in the tree survives verbatim. -/
def dfs : Node → Except PyErr (List Node)
  | .text s => .ok [.text s]
  | .elem tag cs =>
    if tag = "annotation" then
      match mergeMi tag cs with
      | .error e => .error e
      | .ok _ => .ok []
    else if tag = "semantics" ∧ cs.length = 1 then
      .ok cs
    else
      match dfsList cs with
      | .error e => .error e
      | .ok cs' => applyRules true tag cs'

/-- `for c in list(t.children): self.dfs(c)`: each child is replaced in the
live child list by its `dfs` result; the loop runs over a snapshot, so the
new child list is the concatenation of the results. -/
def dfsList : List Node → Except PyErr (List Node)
  | [] => .ok []
  | c :: rest =>
    match dfs c with
    | .error e => .error e
    | .ok rs =>
      match dfsList rest with
      | .error e => .error e
      | .ok rest' => .ok (rs ++ rest')

end

/-- Extract the children of the sole document element produced by
`normalize` (the shape `[document element]` always obtains there). -/
def docResult : List Node → List Node
  | [.elem _ k] => k
  | rs => rs

/-- `Normalizer.normalize(soup)`: `dfs` on the soup object, whose tag is
`[document]`, which has no parent, and which is neither `annotation` nor
`semantics`; the result models the document's final child sequence. -/
def normalize (cs : List Node) : Except PyErr (List Node) :=
  match dfsList cs with
  | .error e => .error e
  | .ok cs' =>
    match applyRules false "[document]" cs' with
    | .error e => .error e
    | .ok rs => .ok (docResult rs)

/-- Whether `sub` occurs as a contiguous substring of `s`. -/
def strContains (s sub : String) : Bool := decide (sub.data <:+: s.data)

mutual

/-- No element anywhere in the tree has tag `x`. -/
def noTag (x : String) : Node → Bool
  | .text _ => true
  | .elem t cs => !(t == x) && noTagList x cs

/-- `noTag` for every tree in the list. -/
def noTagList (x : String) : List Node → Bool
  | [] => true
  | c :: r => noTag x c && noTagList x r

end

mutual

/-- Every element anywhere in the tree whose tag has a required arity in
`POSITIONAL_TAGS` has exactly that many children. -/
def arityOk : Node → Bool
  | .text _ => true
  | .elem t cs =>
    (match POSITIONAL_GET t with
     | some n => cs.length == n
     | none => true) && arityOkList cs

/-- `arityOk` for every tree in the list. -/
def arityOkList : List Node → Bool
  | [] => true
  | c :: r => arityOk c && arityOkList r

end

mutual

/-- Some text leaf in the tree contains the codepoint U+2061. -/
def containsFA : Node → Bool
  | .text s => s.data.contains '\u2061'
  | .elem _ cs => containsFAList cs

/-- `containsFA` for some tree in the list. -/
def containsFAList : List Node → Bool
  | [] => false
  | c :: r => containsFA c || containsFAList r

end

/-- Replacing U+2009 by a space with the fuelled one-character replace leaves
no U+2009 in the result (the fuel bounds the length, so it never runs out). -/
theorem thinspace_not_mem_pyReplaceFuel (fuel : Nat) (l : List Char)
    (h : l.length ≤ fuel) : '\u2009' ∉ pyReplaceFuel '\u2009' [] [' '] fuel l := by
  induction fuel generalizing l with
  | zero =>
    have hl : l = [] := List.eq_nil_of_length_eq_zero (Nat.le_zero.mp h)
    subst hl; simp [pyReplaceFuel]
  | succ n ih =>
    cases l with
    | nil => simp [pyReplaceFuel]
    | cons c rest =>
      simp only [pyReplaceFuel]
      split
      · next hc =>
        simp only [List.drop_zero, List.mem_append]
        rintro (h1 | h2)
        · simp at h1
        · exact ih rest (by simpa using Nat.le_of_succ_le_succ h) h2
      · next hc =>
        intro hm
        rcases List.mem_cons.mp hm with h1 | h2
        · exact hc ⟨h1.symm, by simp [List.isPrefixOf]⟩
        · exact ih rest (by simpa using Nat.le_of_succ_le_succ h) h2

/-- A normalized text leaf never contains the thin-space codepoint U+2009:
the last substitution of `normalize_characters` replaces every occurrence. -/
theorem thinspace_not_mem_normalizeLeaf (s : String) :
    '\u2009' ∉ (normalizeLeaf s).data := by
  unfold normalizeLeaf
  split
  · simp
  · unfold normalize_characters pyReplace
    simp only
    exact thinspace_not_mem_pyReplaceFuel _ _ (Nat.le_refl _)


/-- C1: the claim that `normalize` is idempotent is false.  On the document
`<semantics><mi>x</mi><annotation>a</annotation></semantics>` the first run
removes the annotation, leaving a one-child `semantics` element (the
unwrapping test ran before the annotation was removed); the second run then
unwraps it, so the second run is not a no-op. -/
theorem c1_normalize_not_idempotent :
    normalize [.elem "semantics" [.elem "mi" [.text "x"],
                                  .elem "annotation" [.text "a"]]]
      = .ok [.elem "semantics" [.elem "mi" [.text "x"]]]
    ∧ normalize [.elem "semantics" [.elem "mi" [.text "x"]]]
      = .ok [.elem "mi" [.text "x"]]
    ∧ [Node.elem "semantics" [.elem "mi" [.text "x"]]]
      ≠ [Node.elem "mi" [.text "x"]] := by
  refine ⟨by decide, by decide, by decide⟩

/-- C2 (counterexample): `normalize` can succeed while the result contains a
positional element with the wrong child count.  First, a `semantics` element
with one child is replaced by that child without visiting it, so an `msub`
with one child inside it is never validated.  Second, `remove_empty_columns`
removes cells from an `mtable` row after the row was validated, so a
positional element used as a row loses a child after its own validation. -/
theorem c2_arity_counterexample :
    normalize [.elem "semantics" [.elem "msub" [.elem "mi" [.text "x"]]]]
      = .ok [.elem "msub" [.elem "mi" [.text "x"]]]
    ∧ arityOkList [Node.elem "msub" [.elem "mi" [.text "x"]]] = false
    ∧ normalize [.elem "mtable" [.elem "msub" [.elem "mi" [.text "a"],
                                               .elem "mtd" []]]]
      = .ok [.elem "mtable" [.elem "msub" [.elem "mi" [.text "a"]]]]
    ∧ arityOkList [Node.elem "mtable" [.elem "msub" [.elem "mi" [.text "a"]]]]
      = false := by
  refine ⟨by decide, by decide, by decide, by decide⟩

/-- C3 (counterexample): the child replacing an unwrapped `semantics` element
is not normalized.  `<semantics><mrow><mi>x</mi><mi>y</mi></mrow></semantics>`
normalizes to the untouched `<mrow><mi>x</mi><mi>y</mi></mrow>`, although
normalizing that `mrow` directly merges the identifiers and collapses it to
`<mi>xy</mi>`. -/
theorem c3_semantics_counterexample :
    normalize [.elem "semantics" [.elem "mrow" [.elem "mi" [.text "x"],
                                                .elem "mi" [.text "y"]]]]
      = .ok [.elem "mrow" [.elem "mi" [.text "x"], .elem "mi" [.text "y"]]]
    ∧ normalize [.elem "mrow" [.elem "mi" [.text "x"], .elem "mi" [.text "y"]]]
      = .ok [.elem "mi" [.text "xy"]]
    ∧ [Node.elem "mrow" [.elem "mi" [.text "x"], .elem "mi" [.text "y"]]]
      ≠ [Node.elem "mi" [.text "xy"]] := by
  refine ⟨by decide, by decide, by decide⟩

/-- C3 (amended): a `semantics` element whose child count is exactly one at
the moment it is visited --- counted before any recursion --- is replaced by
that single child verbatim: the child (an arbitrary tree) is not
normalized. -/
theorem c3_semantics_unwrap_amended (c : Node) :
    dfs (.elem "semantics" [c]) = .ok [c] := rfl

/-- C4 (counterexample): an `annotation` element can survive a successful
`normalize` when it sits inside the child of an unwrapped one-child
`semantics` element, which is never visited. -/
theorem c4_ann_removal_counterexample :
    noTagList "annotation"
      [Node.elem "semantics" [.elem "mrow" [.elem "annotation" [.text "a"],
                                            .elem "mi" [.text "x"]]]] = false
    ∧ normalize [.elem "semantics" [.elem "mrow" [.elem "annotation" [.text "a"],
                                                  .elem "mi" [.text "x"]]]]
      = .ok [.elem "mrow" [.elem "annotation" [.text "a"],
                           .elem "mi" [.text "x"]]]
    ∧ noTagList "annotation"
        [Node.elem "mrow" [.elem "annotation" [.text "a"],
                           .elem "mi" [.text "x"]]] = false := by
  refine ⟨by decide, by decide, by decide⟩

/-- C5 (counterexample): the arity failure for `<msub><mi>x</mi></msub>` is a
`RuntimeError` whose message names the offending tag but does not contain the
actual child count (the digit 1 occurs nowhere in it). -/
theorem c5_error_message_counterexample :
    normalize [.elem "msub" [.elem "mi" [.text "x"]]]
      = .error (.runtimeError "msub has an invalid number of children")
    ∧ strContains "msub has an invalid number of children" "1" = false := by
  refine ⟨by decide, by decide⟩

/-- C5 (amended): a positional tag whose post-normalization child count
differs from its required arity makes `normalize` raise a `RuntimeError`
identifying the offending tag (but not the count) and return no tree; in
particular `<msub><mi>x</mi></msub>` fails normalization. -/
theorem c5_arity_failure_amended :
    normalize [.elem "msub" [.elem "mi" [.text "x"]]]
      = .error (.runtimeError "msub has an invalid number of children")
    ∧ strContains "msub has an invalid number of children" "msub" = true := by
  refine ⟨by decide, by decide⟩

/-- C6: the claim that no leaf of a successful result contains U+2061 is
false, because no leaf is ever modified: the text branch computes the
deletion (for the exact-match case only) but assigns it to `t.string` on a
`NavigableString`, which has no `string` setter, so the tree keeps the leaf
verbatim.  Even a leaf that is exactly U+2061 — which the code visibly
intends to empty, as `normalizeLeaf` shows — survives a successful
`normalize`. -/
theorem c6_fa_leaf_untouched :
    normalize [.elem "mo" [.text "\u2061"]]
      = .ok [.elem "mo" [.text "\u2061"]]
    ∧ containsFAList [Node.elem "mo" [.text "\u2061"]] = true
    ∧ normalizeLeaf "\u2061" = "" := by
  refine ⟨by decide, by decide, by decide⟩

/-- C7: the claim that an empty non-always-empty element is preserved under a
positional parent is false: `remove_empty_tag` compares the parent element
object with the string keys of `POSITIONAL_TAGS`, which never succeeds, so
the empty child is detached under any parent; the subsequent arity check on
the positional parent then fails. -/
theorem c7_empty_child_pruned :
    dfs (.elem "mrow" []) = .ok []
    ∧ normalize [.elem "msub" [.elem "mi" [.text "x"], .elem "mrow" []]]
      = .error (.runtimeError "msub has an invalid number of children") := by
  refine ⟨by decide, by decide⟩

/-- C8: the claim that the j-th cell is detached from every row exactly when
column j is empty is false.  With three columns of which the first and third
are empty, extracting a row first cell while iterating the live child list
skips its second cell, and the third cell is then tested against column
index 1, so each row keeps its empty third cell instead of dropping it. -/
theorem c8_column_pruning_skip :
    normalize [.elem "mtable"
      [.elem "mtr" [.elem "mtd" [], .elem "mtd" [.elem "mi" [.text "a"]],
                    .elem "mtd" []],
       .elem "mtr" [.elem "mtd" [], .elem "mtd" [.elem "mi" [.text "b"]],
                    .elem "mtd" []]]]
      = .ok [.elem "mtable"
          [.elem "mtr" [.elem "mtd" [.elem "mi" [.text "a"]], .elem "mtd" []],
           .elem "mtr" [.elem "mtd" [.elem "mi" [.text "b"]], .elem "mtd" []]]]
    ∧ [Node.elem "mtable"
        [.elem "mtr" [.elem "mtd" [.elem "mi" [.text "a"]], .elem "mtd" []],
         .elem "mtr" [.elem "mtd" [.elem "mi" [.text "b"]], .elem "mtd" []]]]
      ≠ [Node.elem "mtable"
          [.elem "mtr" [.elem "mtd" [.elem "mi" [.text "a"]]],
           .elem "mtr" [.elem "mtd" [.elem "mi" [.text "b"]]]]] := by
  refine ⟨by decide, by decide⟩

/-- C9: the claim that each minus-sign look-alike and each thin space is
replaced in every text leaf is false twice over.  No substituted value ever
reaches the tree (the assignment to `t.string` on a `NavigableString` only
creates a shadow attribute), so a leaf with a thin space survives verbatim,
untrimmed, even though the program computes the substituted value, as
`normalizeLeaf` shows; and the substitution pattern for the minus is the
mojibake three-character sequence U+00E2 U+02C6 U+2019, so even the computed
value leaves the real minus-sign character U+2212 unchanged. -/
theorem c9_chars_leaf_untouched :
    normalize [.elem "mi" [.text " a\u2009b "]]
      = .ok [.elem "mi" [.text " a\u2009b "]]
    ∧ normalizeLeaf " a\u2009b " = "a b"
    ∧ normalize [.elem "mi" [.text "\u2212"]]
      = .ok [.elem "mi" [.text "\u2212"]]
    ∧ normalize_characters "\u00E2\u02C6\u2019" = "-"
    ∧ normalize_characters "\u2212" = "\u2212" := by
  refine ⟨by decide, by decide, by decide, by decide, by decide⟩

/-- C10: an `mtable` element that has no children when its own rules run
makes `normalize` raise `ValueError` (from `max()` over the empty sequence
of row widths): both a row-less `<mtable/>` and an `mtable` whose only row
is fully empty (the row detaches itself during the recursive pass) fail this
way, and in general the rule pipeline on a childless `mtable` raises that
`ValueError` whether or not the element still has a parent. -/
theorem c10_empty_table_valueerror :
    normalize [.elem "math" [.elem "mtable" []]]
      = .error (.valueError "max() arg is an empty sequence")
    ∧ normalize [.elem "math" [.elem "mtable" [.elem "mtr" [.elem "mtd" []]]]]
      = .error (.valueError "max() arg is an empty sequence")
    ∧ ∀ hasParent : Bool, applyRules hasParent "mtable" []
      = .error (.valueError "max() arg is an empty sequence") := by
  refine ⟨by decide, by decide, fun hp => by cases hp <;> decide⟩


theorem noTagList_iff (x : String) (l : List Node) :
    noTagList x l = true ↔ ∀ c ∈ l, noTag x c = true := by
  induction l with
  | nil => simp [noTagList]
  | cons c r ih => simp [noTagList, ih]

theorem noTag_elem (x t : String) (cs : List Node) :
    noTag x (.elem t cs) = (!(t == x) && noTagList x cs) := rfl

theorem noTag_elem_iff (x t : String) (cs : List Node) :
    noTag x (.elem t cs) = true ↔ t ≠ x ∧ noTagList x cs = true := by
  simp [noTag_elem]

theorem noTagList_append (x : String) (l1 l2 : List Node) :
    noTagList x (l1 ++ l2) = (noTagList x l1 && noTagList x l2) := by
  induction l1 with
  | nil => simp [noTagList]
  | cons c r ih => simp [noTagList, ih, Bool.and_assoc]

theorem arityOkList_iff (l : List Node) :
    arityOkList l = true ↔ ∀ c ∈ l, arityOk c = true := by
  induction l with
  | nil => simp [arityOkList]
  | cons c r ih => simp [arityOkList, ih]

theorem arityOkList_append (l1 l2 : List Node) :
    arityOkList (l1 ++ l2) = (arityOkList l1 && arityOkList l2) := by
  induction l1 with
  | nil => simp [arityOkList]
  | cons c r ih => simp [arityOkList, ih, Bool.and_assoc]

theorem extractLoop_sublist (isE : List Bool) :
    (j : Nat) → (l : List Node) → List.Sublist (extractLoop isE j l) l
  | _, [] => List.nil_sublist _
  | j, [cell] => by
    simp only [extractLoop]
    split
    · exact List.nil_sublist _
    · exact List.Sublist.refl _
  | j, cell :: skipped :: rest => by
    simp only [extractLoop]
    split
    · exact List.Sublist.cons _ (List.Sublist.cons₂ _ (extractLoop_sublist isE (j+1) rest))
    · exact List.Sublist.cons₂ _ (extractLoop_sublist isE (j+1) (skipped :: rest))

theorem noTagList_of_sublist (x : String) {l l' : List Node} (h : List.Sublist l' l)
    (hl : noTagList x l = true) : noTagList x l' = true := by
  rw [noTagList_iff] at hl ⊢
  exact fun c hc => hl c (h.mem hc)

theorem arityOkList_of_sublist {l l' : List Node} (h : List.Sublist l' l)
    (hl : arityOkList l = true) : arityOkList l' = true := by
  rw [arityOkList_iff] at hl ⊢
  exact fun c hc => hl c (h.mem hc)


theorem noTag_mi_text (x : String) (hx : x ≠ "mi") (s : String) :
    noTag x (.elem "mi" [.text s]) = true := by
  simp [noTag, noTagList, Ne.symm hx]

theorem arityOk_mi_text (s : String) : arityOk (.elem "mi" [.text s]) = true := rfl

theorem mergeGo_noTag (x : String) (hx : x ≠ "mi") :
    ∀ (pending : Option Node) (l res : List Node),
      mergeGo pending l = .ok res →
      (∀ p, pending = some p → noTag x p = true) →
      noTagList x l = true → noTagList x res = true
  | pending, [], res => by
    intro h hp _
    simp only [mergeGo] at h
    cases h
    cases pending with
    | none => simp [Option.toList, noTagList]
    | some p => simp [Option.toList, noTagList, hp p rfl]
  | none, c :: rest, res => by
    intro h hp hl
    simp only [mergeGo] at h
    rw [noTagList, Bool.and_eq_true] at hl
    exact mergeGo_noTag x hx (some c) rest res h
      (fun p hpe => by cases hpe; exact hl.1) hl.2
  | some p, c :: rest, res => by
    intro h hp hl
    simp only [mergeGo] at h
    have hpx := hp p rfl
    rw [noTagList, Bool.and_eq_true] at hl
    split at h
    · split at h
      · exact mergeGo_noTag x hx _ rest res h
          (fun q hq => by cases hq; exact noTag_mi_text x hx _) hl.2
      · cases h
    · cases hme : mergeGo (some c) rest with
      | error e => rw [hme] at h; cases h
      | ok l2 =>
        rw [hme] at h
        cases h
        rw [noTagList, Bool.and_eq_true]
        exact ⟨hpx, mergeGo_noTag x hx (some c) rest l2 hme
          (fun q hq => by cases hq; exact hl.1) hl.2⟩

theorem mergeMi_noTag (x : String) (hx : x ≠ "mi") (tag : String)
    (cs res : List Node) (h : mergeMi tag cs = .ok res)
    (hcs : noTagList x cs = true) : noTagList x res = true := by
  unfold mergeMi at h
  split at h
  · cases h; exact hcs
  · exact mergeGo_noTag x hx none cs res h (by intro p hp; cases hp) hcs

theorem mergeGo_arity :
    ∀ (pending : Option Node) (l res : List Node),
      mergeGo pending l = .ok res →
      (∀ p, pending = some p → arityOk p = true) →
      arityOkList l = true → arityOkList res = true
  | pending, [], res => by
    intro h hp _
    simp only [mergeGo] at h
    cases h
    cases pending with
    | none => simp [Option.toList, arityOkList]
    | some p => simp [Option.toList, arityOkList, hp p rfl]
  | none, c :: rest, res => by
    intro h hp hl
    simp only [mergeGo] at h
    rw [arityOkList, Bool.and_eq_true] at hl
    exact mergeGo_arity (some c) rest res h
      (fun p hpe => by cases hpe; exact hl.1) hl.2
  | some p, c :: rest, res => by
    intro h hp hl
    simp only [mergeGo] at h
    have hpx := hp p rfl
    rw [arityOkList, Bool.and_eq_true] at hl
    split at h
    · split at h
      · exact mergeGo_arity _ rest res h
          (fun q hq => by cases hq; exact arityOk_mi_text _) hl.2
      · cases h
    · cases hme : mergeGo (some c) rest with
      | error e => rw [hme] at h; cases h
      | ok l2 =>
        rw [hme] at h
        cases h
        rw [arityOkList, Bool.and_eq_true]
        exact ⟨hpx, mergeGo_arity (some c) rest l2 hme
          (fun q hq => by cases hq; exact hl.1) hl.2⟩

theorem mergeMi_arity (tag : String) (cs res : List Node)
    (h : mergeMi tag cs = .ok res) (hcs : arityOkList cs = true) :
    arityOkList res = true := by
  unfold mergeMi at h
  split at h
  · cases h; exact hcs
  · exact mergeGo_arity none cs res h (by intro p hp; cases hp) hcs


theorem removeEmptyColumns_not_mtable (tag : String) (cs : List Node)
    (h : tag ≠ "mtable") : removeEmptyColumns tag cs = .ok cs := by
  unfold removeEmptyColumns
  rw [if_neg h]

theorem removeEmptyColumns_noTag (x tag : String) (cs cs' : List Node)
    (h : removeEmptyColumns tag cs = .ok cs')
    (hcs : noTagList x cs = true) : noTagList x cs' = true := by
  unfold removeEmptyColumns at h
  split at h
  · split at h
    · cases h
    · split at h
      · cases h
      · cases h
        rw [noTagList_iff]
        intro c hc
        rw [List.mem_map] at hc
        obtain ⟨row, hrow, hfc⟩ := hc
        have hr := (noTagList_iff x cs).mp hcs row hrow
        cases row with
        | text s => cases hfc; exact hr
        | elem rt rcs =>
          cases hfc
          rw [noTag_elem_iff] at hr ⊢
          exact ⟨hr.1, noTagList_of_sublist x (extractLoop_sublist _ 0 rcs) hr.2⟩
  · cases h; exact hcs

theorem replaceSingle_noTag (x : String) (c : Node) (hc : noTag x c = true) :
    noTagList x (replaceSingle c) = true := by
  unfold replaceSingle
  split
  · next gcs =>
    rw [noTag_elem_iff] at hc
    have h1 := (noTagList_iff x _).mp hc.2
      (Node.elem "mtr" [Node.elem "mtd" gcs]) (by simp)
    rw [noTag_elem_iff] at h1
    have h2 := (noTagList_iff x _).mp h1.2 (Node.elem "mtd" gcs) (by simp)
    rw [noTag_elem_iff] at h2
    exact h2.2
  · simp [noTagList, hc]

theorem removeSingleTable_noTag (x : String) (cs : List Node)
    (hcs : noTagList x cs = true) :
    noTagList x (removeSingleTable cs) = true := by
  induction cs with
  | nil => simp [removeSingleTable, noTagList]
  | cons c r ih =>
    rw [noTagList, Bool.and_eq_true] at hcs
    rw [removeSingleTable, List.flatMap_cons, noTagList_append]
    rw [← removeSingleTable]
    simp [replaceSingle_noTag x c hcs.1, ih hcs.2]

theorem replaceSingle_of_no_mtable (c : Node) (hc : noTag "mtable" c = true) :
    replaceSingle c = [c] := by
  unfold replaceSingle
  split
  · next gcs => simp [noTag] at hc
  · rfl

theorem removeSingleTable_id (cs : List Node)
    (hcs : noTagList "mtable" cs = true) : removeSingleTable cs = cs := by
  induction cs with
  | nil => rfl
  | cons c r ih =>
    rw [noTagList, Bool.and_eq_true] at hcs
    rw [removeSingleTable, List.flatMap_cons, ← removeSingleTable,
      replaceSingle_of_no_mtable c hcs.1, ih hcs.2]
    rfl

theorem validate_length (tag : String) (cs : List Node)
    (h : validate tag cs = .ok ()) (n : Nat)
    (hn : POSITIONAL_GET tag = some n) : cs.length = n := by
  unfold validate at h
  split at h
  · rename_i m heq
    rw [hn] at heq
    injection heq with h2
    subst h2
    split at h
    · assumption
    · cases h
  · rename_i heq
    rw [hn] at heq
    cases heq


theorem noTagList_nil (x : String) : noTagList x [] = true := rfl

theorem applyRules_noTag (x : String) (hx : x ≠ "mi") (hp : Bool) (tag : String)
    (cs rs : List Node) (htag : tag ≠ x)
    (h : applyRules hp tag cs = .ok rs)
    (hcs : noTagList x cs = true) : noTagList x rs = true := by
  simp only [applyRules] at h
  split at h
  · cases h
  · rename_i cs1 hm
    have h1 : noTagList x cs1 = true := mergeMi_noTag x hx tag cs cs1 hm hcs
    split at h
    · split at h
      · cases h; exact h1
      · cases h
    · split at h
      · cases h
      · rename_i cs2 hc
        have h2 := removeEmptyColumns_noTag x tag cs1 cs2 hc h1
        split at h
        · cases h
        · cases h
          split
          · exact noTagList_nil x
          · rw [noTagList, Bool.and_eq_true]
            exact ⟨(noTag_elem_iff x tag _).mpr ⟨htag, removeSingleTable_noTag x cs2 h2⟩,
                   noTagList_nil x⟩

theorem applyRules_arity (hp : Bool) (tag : String) (cs rs : List Node)
    (htag : tag ≠ "mtable")
    (h : applyRules hp tag cs = .ok rs)
    (hcs : arityOkList cs = true)
    (hmt : noTagList "mtable" cs = true) : arityOkList rs = true := by
  simp only [applyRules] at h
  split at h
  · cases h
  · rename_i cs1 hm
    have h1 : arityOkList cs1 = true := mergeMi_arity tag cs cs1 hm hcs
    have h1m : noTagList "mtable" cs1 = true :=
      mergeMi_noTag "mtable" (by decide) tag cs cs1 hm hmt
    split at h
    · split at h
      · cases h; exact h1
      · cases h
    · split at h
      · cases h
      · rename_i cs2 hc
        rw [removeEmptyColumns_not_mtable tag cs1 htag] at hc
        injection hc with hc
        subst hc
        rw [removeSingleTable_id cs1 h1m] at h
        split at h
        · cases h
        · rename_i u hv
          cases h
          split
          · rfl
          · rw [arityOkList, Bool.and_eq_true]
            refine ⟨?_, rfl⟩
            rw [arityOk]
            rw [Bool.and_eq_true]
            refine ⟨?_, h1⟩
            cases hg : POSITIONAL_GET tag with
            | none => rfl
            | some n =>
              simp only [hg]
              simp [validate_length tag cs1 hv n hg]
  

mutual

theorem dfs_noTag (x : String) (hx : x ≠ "mi") :
    ∀ (t : Node), noTag x t = true → ∀ rs, dfs t = .ok rs →
      noTagList x rs = true
  | .text s => by
    intro ht rs h
    simp only [dfs] at h
    cases h
    simp [noTagList, noTag]
  | .elem tag cs => by
    intro ht rs h
    rw [noTag_elem_iff] at ht
    simp only [dfs] at h
    split at h
    · split at h
      · cases h
      · cases h; exact noTagList_nil x
    · split at h
      · cases h; exact ht.2
      · split at h
        · cases h
        · rename_i cs' hd
          exact applyRules_noTag x hx true tag cs' rs ht.1 h
            (dfsList_noTag x hx cs ht.2 cs' hd)

theorem dfsList_noTag (x : String) (hx : x ≠ "mi") :
    ∀ (l : List Node), noTagList x l = true → ∀ rs, dfsList l = .ok rs →
      noTagList x rs = true
  | [] => by
    intro hl rs h
    simp only [dfsList] at h
    cases h
    exact noTagList_nil x
  | c :: rest => by
    intro hl rs h
    rw [noTagList, Bool.and_eq_true] at hl
    simp only [dfsList] at h
    split at h
    · cases h
    · rename_i rs1 h1
      split at h
      · cases h
      · rename_i rs2 h2
        cases h
        rw [noTagList_append, Bool.and_eq_true]
        exact ⟨dfs_noTag x hx c hl.1 rs1 h1, dfsList_noTag x hx rest hl.2 rs2 h2⟩

end

mutual

theorem dfs_arity :
    ∀ (t : Node), noTag "semantics" t = true → noTag "mtable" t = true →
      ∀ rs, dfs t = .ok rs → arityOkList rs = true
  | .text s => by
    intro _ _ rs h
    simp only [dfs] at h
    cases h
    rfl
  | .elem tag cs => by
    intro hs hm rs h
    rw [noTag_elem_iff] at hs hm
    simp only [dfs] at h
    split at h
    · split at h
      · cases h
      · cases h; rfl
    · split at h
      · rename_i hcond
        exact absurd hcond.1 hs.1
      · split at h
        · cases h
        · rename_i cs' hd
          exact applyRules_arity true tag cs' rs hm.1 h
            (dfsList_arity cs hs.2 hm.2 cs' hd)
            (dfsList_noTag "mtable" (by decide) cs hm.2 cs' hd)

theorem dfsList_arity :
    ∀ (l : List Node), noTagList "semantics" l = true →
      noTagList "mtable" l = true →
      ∀ rs, dfsList l = .ok rs → arityOkList rs = true
  | [] => by
    intro _ _ rs h
    simp only [dfsList] at h
    cases h
    rfl
  | c :: rest => by
    intro hs hm rs h
    rw [noTagList, Bool.and_eq_true] at hs hm
    simp only [dfsList] at h
    split at h
    · cases h
    · rename_i rs1 h1
      split at h
      · cases h
      · rename_i rs2 h2
        cases h
        rw [arityOkList_append, Bool.and_eq_true]
        exact ⟨dfs_arity c hs.1 hm.1 rs1 h1, dfsList_arity rest hs.2 hm.2 rs2 h2⟩

end

mutual

theorem dfs_no_ann :
    ∀ (t : Node), noTag "semantics" t = true →
      ∀ rs, dfs t = .ok rs → noTagList "annotation" rs = true
  | .text s => by
    intro _ rs h
    simp only [dfs] at h
    cases h
    rfl
  | .elem tag cs => by
    intro hs rs h
    rw [noTag_elem_iff] at hs
    simp only [dfs] at h
    split at h
    · split at h
      · cases h
      · cases h; rfl
    · rename_i hann
      split at h
      · rename_i hcond
        exact absurd hcond.1 hs.1
      · split at h
        · cases h
        · rename_i cs' hd
          exact applyRules_noTag "annotation" (by decide) true tag cs' rs hann h
            (dfsList_no_ann cs hs.2 cs' hd)

theorem dfsList_no_ann :
    ∀ (l : List Node), noTagList "semantics" l = true →
      ∀ rs, dfsList l = .ok rs → noTagList "annotation" rs = true
  | [] => by
    intro _ rs h
    simp only [dfsList] at h
    cases h
    rfl
  | c :: rest => by
    intro hs rs h
    rw [noTagList, Bool.and_eq_true] at hs
    simp only [dfsList] at h
    split at h
    · cases h
    · rename_i rs1 h1
      split at h
      · cases h
      · rename_i rs2 h2
        cases h
        rw [noTagList_append, Bool.and_eq_true]
        exact ⟨dfs_no_ann c hs.1 rs1 h1, dfsList_no_ann rest hs.2 rs2 h2⟩

end


theorem docResult_noTag (x : String) (rs : List Node)
    (h : noTagList x rs = true) : noTagList x (docResult rs) = true := by
  unfold docResult
  split
  · rename_i t k
    rw [noTagList, Bool.and_eq_true] at h
    exact ((noTag_elem_iff x _ _).mp h.1).2
  · exact h

theorem docResult_arity (rs : List Node)
    (h : arityOkList rs = true) : arityOkList (docResult rs) = true := by
  unfold docResult
  split
  · rename_i t k
    rw [arityOkList, Bool.and_eq_true] at h
    have h1 := h.1
    rw [arityOk, Bool.and_eq_true] at h1
    exact h1.2
  · exact h

theorem c2_arity_invariant_amended (cs rs : List Node)
    (h1 : noTagList "semantics" cs = true)
    (h2 : noTagList "mtable" cs = true)
    (h : normalize cs = .ok rs) : arityOkList rs = true := by
  simp only [normalize] at h
  split at h
  · cases h
  · rename_i cs' hd
    split at h
    · cases h
    · rename_i rs0 ha
      cases h
      exact docResult_arity rs0
        (applyRules_arity false "[document]" cs' rs0 (by decide) ha
          (dfsList_arity cs h1 h2 cs' hd)
          (dfsList_noTag "mtable" (by decide) cs h2 cs' hd))

theorem c2_arity_witness :
    noTagList "semantics"
      [Node.elem "msub" [.elem "mi" [.text "x"], .elem "mi" [.text "y"]]] = true
    ∧ noTagList "mtable"
        [Node.elem "msub" [.elem "mi" [.text "x"], .elem "mi" [.text "y"]]] = true
    ∧ normalize [.elem "msub" [.elem "mi" [.text "x"], .elem "mi" [.text "y"]]]
      = .ok [.elem "msub" [.elem "mi" [.text "x"], .elem "mi" [.text "y"]]]
    ∧ arityOkList
        [Node.elem "msub" [.elem "mi" [.text "x"], .elem "mi" [.text "y"]]] = true :=
  ⟨by decide, by decide, by decide,
   c2_arity_invariant_amended
     [Node.elem "msub" [.elem "mi" [.text "x"], .elem "mi" [.text "y"]]]
     [Node.elem "msub" [.elem "mi" [.text "x"], .elem "mi" [.text "y"]]]
     (by decide) (by decide) (by decide)⟩

theorem c4_ann_removal_amended (cs rs : List Node)
    (h1 : noTagList "semantics" cs = true)
    (h : normalize cs = .ok rs) : noTagList "annotation" rs = true := by
  simp only [normalize] at h
  split at h
  · cases h
  · rename_i cs' hd
    split at h
    · cases h
    · rename_i rs0 ha
      cases h
      exact docResult_noTag "annotation" rs0
        (applyRules_noTag "annotation" (by decide) false "[document]" cs' rs0
          (by decide) ha (dfsList_no_ann cs h1 cs' hd))

theorem c4_ann_removal_witness :
    noTagList "semantics"
      [Node.elem "mrow" [.elem "annotation" [.text "a"], .elem "mi" [.text "x"],
                         .elem "mi" [.text "y"]]] = true
    ∧ normalize [.elem "mrow" [.elem "annotation" [.text "a"],
                               .elem "mi" [.text "x"], .elem "mi" [.text "y"]]]
      = .ok [.elem "mi" [.text "xy"]]
    ∧ noTagList "annotation" [Node.elem "mi" [.text "xy"]] = true :=
  ⟨by decide, by decide,
   c4_ann_removal_amended
     [Node.elem "mrow" [.elem "annotation" [.text "a"], .elem "mi" [.text "x"],
                        .elem "mi" [.text "y"]]]
     [Node.elem "mi" [.text "xy"]]
     (by decide) (by decide)⟩

end MathmlNorm
